import Mathlib

/-!
# Verification of the GIF caption creator

A shallow embedding of the repository's main-thread UI glue
(`index.html`) and its web worker (`worker.js`), together with a model of
the wasm GIF engine (`GifProcessor`) reconstructed from the design
specification (the Rust/wasm engine sources are not part of the
repository snapshot).  Theorems settle the frozen claims about the
worker message protocol, the UI state machine, the preview animation
loop, and the GIF-flavored LZW codec.
-/

/-! ## LZW codec

Modelled from the spec: the LZW Codec is implemented in the wasm engine,
which is not in the repository snapshot.  The model follows §4.2 of the
design document at the level of code sequences: a Clear code and an
End-of-Information code are reserved, the decoder rebuilds the dictionary
incrementally from decoded codes and resets on an explicit Clear code,
and the encoder emits the code for the longest known prefix match, adds
the extended string as a new dictionary entry, resets the dictionary at
the 12-bit capacity by emitting Clear, and flushes a final code plus
End-of-Information.  Bit packing of codes into sub-blocks is a separate
serialization layer and is abstracted away.
-/

/-- A single LZW output code: Clear, End-of-Information, or a dictionary
index. -/
inductive LZWCode where
  | clear : LZWCode
  | eoi : LZWCode
  | code : Nat → LZWCode
deriving DecidableEq, Repr

/-- The initial LZW dictionary over `N` root symbols: entry `k` is the
one-symbol string `[k]`. -/
def initDict (N : Nat) : List (List Nat) :=
  (List.range N).map (fun i => [i])

/-- Index of the first occurrence of `w` in the dictionary (the code the
encoder emits for a known string). -/
def codeIndex {α : Type} [DecidableEq α] (l : List α) (w : α) : Nat :=
  match l with
  | [] => 0
  | e :: rest => if e = w then 0 else codeIndex rest w + 1

/-- Encoder main loop: `dict` is the current dictionary, `w` the current
(nonempty) buffered string, and the third argument the remaining input.
When the dictionary reaches the capacity `cap` it is reset by emitting a
Clear code. -/
def encLoop (N cap : Nat) (dict : List (List Nat)) (w : List Nat) :
    List Nat → List LZWCode
  | [] => [LZWCode.code (codeIndex dict w), LZWCode.eoi]
  | k :: rest =>
    if w ++ [k] ∈ dict then
      encLoop N cap dict (w ++ [k]) rest
    else if dict.length < cap then
      LZWCode.code (codeIndex dict w) :: encLoop N cap (dict ++ [w ++ [k]]) [k] rest
    else
      LZWCode.code (codeIndex dict w) :: LZWCode.clear ::
        encLoop N cap (initDict N) [k] rest

/-- The decoder's dictionary lookup for a received code `c` when a
previous string `prev` exists: an in-range code is read from the
dictionary, while the one-past-the-end code is the `prev ++ [head prev]`
special case of LZW dictionary reconstruction. -/
def decEntry (dict : List (List Nat)) (prev : List Nat) (c : Nat) : List Nat :=
  if c < dict.length then dict.getD c [] else prev ++ [prev.headD 0]

/-- Decoder main loop: `prev = []` marks the fresh state (start of stream
or just after a Clear code), in which the next code is looked up directly
and no dictionary entry is added. -/
def decLoop (N : Nat) (dict : List (List Nat)) (prev : List Nat) :
    List LZWCode → List Nat
  | [] => []
  | LZWCode.eoi :: _ => []
  | LZWCode.clear :: rest => decLoop N (initDict N) [] rest
  | LZWCode.code c :: rest =>
    if prev = [] then
      (dict.getD c []) ++ decLoop N dict (dict.getD c []) rest
    else
      decEntry dict prev c ++
        decLoop N (dict ++ [prev ++ [(decEntry dict prev c).headD 0]])
          (decEntry dict prev c) rest

/-- GIF dictionary capacity at the 12-bit code-width limit: 4096 codes
minus the reserved Clear and End-of-Information codes. -/
def lzwCap : Nat := 4094

/-- Modelled from the spec: LZW encoding of an indexed pixel sequence
over `N` root symbols. -/
def lzw_encode (N : Nat) (seq : List Nat) : List LZWCode :=
  match seq with
  | [] => [LZWCode.clear, LZWCode.eoi]
  | k :: rest => LZWCode.clear :: encLoop N lzwCap (initDict N) [k] rest

/-- Modelled from the spec: LZW decoding of a code stream over `N` root
symbols. -/
def lzw_decode (N : Nat) (codes : List LZWCode) : List Nat :=
  decLoop N (initDict N) [] codes

/-! ### Dictionary index lemmas -/

theorem codeIndex_lt_length {α : Type} [DecidableEq α] {l : List α} {w : α}
    (h : w ∈ l) : codeIndex l w < l.length := by
  induction l with
  | nil => cases h
  | cons e rest ih =>
    by_cases he : e = w
    · simp [codeIndex, he]
    · rcases List.mem_cons.mp h with h1 | h1
      · exact absurd h1.symm he
      · simp only [codeIndex, if_neg he, List.length_cons]
        exact Nat.succ_lt_succ (ih h1)

theorem getD_codeIndex {α : Type} [DecidableEq α] {l : List α} {w : α}
    (d : α) (h : w ∈ l) : l.getD (codeIndex l w) d = w := by
  induction l with
  | nil => cases h
  | cons e rest ih =>
    by_cases he : e = w
    · simp [codeIndex, he]
    · rcases List.mem_cons.mp h with h1 | h1
      · exact absurd h1.symm he
      · simp only [codeIndex, if_neg he, List.getD_cons_succ]
        exact ih h1

theorem codeIndex_append_left {α : Type} [DecidableEq α] {l₁ : List α}
    (l₂ : List α) {w : α} (h : w ∈ l₁) :
    codeIndex (l₁ ++ l₂) w = codeIndex l₁ w := by
  induction l₁ with
  | nil => cases h
  | cons e rest ih =>
    by_cases he : e = w
    · simp [codeIndex, he]
    · rcases List.mem_cons.mp h with h1 | h1
      · exact absurd h1.symm he
      · simp [codeIndex, he, ih h1]

theorem codeIndex_append_right {α : Type} [DecidableEq α] {l₁ : List α}
    (l₂ : List α) {w : α} (h : w ∉ l₁) :
    codeIndex (l₁ ++ l₂) w = l₁.length + codeIndex l₂ w := by
  induction l₁ with
  | nil => simp
  | cons e rest ih =>
    have he : ¬ (e = w) := fun hh => h (hh ▸ List.mem_cons_self e rest)
    have h2 : w ∉ rest := fun hh => h (List.mem_cons_of_mem e hh)
    simp only [List.cons_append, codeIndex, if_neg he, List.length_cons,
      List.append_eq]
    rw [ih h2]
    omega

theorem getD_append_left {α : Type} {l₁ l₂ : List α} {i : Nat} (d : α)
    (h : i < l₁.length) : (l₁ ++ l₂).getD i d = l₁.getD i d := by
  induction l₁ generalizing i with
  | nil => cases h
  | cons e rest ih =>
    cases i with
    | zero => rfl
    | succ n =>
      simp only [List.cons_append, List.getD_cons_succ]
      exact ih (Nat.lt_of_succ_lt_succ h)

theorem headD_append {α : Type} {l : List α} (l₂ : List α) (d : α)
    (h : l ≠ []) : (l ++ l₂).headD d = l.headD d := by
  cases l with
  | nil => exact absurd rfl h
  | cons e rest => rfl

/-! ### Initial dictionary lemmas -/

theorem initDict_length (N : Nat) : (initDict N).length = N := by
  simp [initDict]

theorem mem_initDict {N : Nat} {l : List Nat} :
    l ∈ initDict N ↔ ∃ k, k < N ∧ l = [k] := by
  simp [initDict, List.mem_map, List.mem_range, eq_comm]

theorem singleton_mem_initDict {N k : Nat} (h : k < N) : [k] ∈ initDict N :=
  mem_initDict.mpr ⟨k, h, rfl⟩

theorem initDict_succ (N : Nat) : initDict (N + 1) = initDict N ++ [[N]] := by
  simp [initDict, List.range_succ]

theorem length_eq_one_of_mem_initDict {N : Nat} {l : List Nat}
    (h : l ∈ initDict N) : l.length = 1 := by
  rcases mem_initDict.mp h with ⟨k, _, rfl⟩
  rfl

theorem codeIndex_initDict {N k : Nat} (h : k < N) :
    codeIndex (initDict N) [k] = k := by
  induction N with
  | zero => omega
  | succ n ih =>
    rw [initDict_succ]
    by_cases hk : k < n
    · rw [codeIndex_append_left _ (singleton_mem_initDict hk), ih hk]
    · have hkn : k = n := by omega
      subst hkn
      have hnot : [k] ∉ initDict k := by
        intro hmem
        rcases mem_initDict.mp hmem with ⟨j, hj, hjeq⟩
        simp only [List.cons.injEq, and_true] at hjeq
        omega
      rw [codeIndex_append_right _ hnot, initDict_length]
      simp [codeIndex]

theorem getD_initDict {N k : Nat} (h : k < N) :
    (initDict N).getD k [] = [k] := by
  have h2 := getD_codeIndex ([] : List Nat) (singleton_mem_initDict h)
  rwa [codeIndex_initDict h] at h2

/-! ### Encoder/decoder synchronization invariants -/

/-- Mid-segment invariant: the decoder's dictionary trails the encoder's
by exactly the entry the encoder added when it last emitted a code, and
that entry is `prev ++ [w.headD 0]` (the head of `w` never changes while
`w` grows by appends). -/
def MidInv (N : Nat) (dE : List (List Nat)) (w : List Nat)
    (dD : List (List Nat)) (prev : List Nat) : Prop :=
  w ≠ [] ∧ prev ≠ [] ∧ dE = dD ++ [prev ++ [w.headD 0]] ∧ w ∈ dE ∧
    ∃ t, dD = initDict N ++ t

/-- Start-of-segment invariant: right after stream start or a Clear code,
both dictionaries are the initial one, the decoder is in the fresh state,
and the encoder has buffered exactly one in-range symbol. -/
def FreshInv (N : Nat) (dE : List (List Nat)) (w : List Nat)
    (dD : List (List Nat)) (prev : List Nat) : Prop :=
  prev = [] ∧ dE = initDict N ∧ dD = initDict N ∧ ∃ k, w = [k] ∧ k < N

/-- Key step: in the mid-segment invariant, the decoder resolves the
code the encoder emits for `w` back to `w` — including the `KwKwK` case
where the code is one past the end of the decoder's dictionary. -/
theorem decEntry_codeIndex {N : Nat} {dE dD : List (List Nat)}
    {w prev : List Nat} (hinv : MidInv N dE w dD prev) :
    decEntry dD prev (codeIndex dE w) = w := by
  obtain ⟨hw, hp, hdE, hmem, -⟩ := hinv
  by_cases hwD : w ∈ dD
  · rw [hdE, codeIndex_append_left _ hwD]
    unfold decEntry
    rw [if_pos (codeIndex_lt_length hwD)]
    exact getD_codeIndex [] hwD
  · have hlast : w = prev ++ [w.headD 0] := by
      rw [hdE] at hmem
      rcases List.mem_append.mp hmem with h1 | h1
      · exact absurd h1 hwD
      · simpa using h1
    have hzero : codeIndex [prev ++ [w.headD 0]] w = 0 := by
      rw [← hlast]
      simp [codeIndex]
    rw [hdE, codeIndex_append_right _ hwD, hzero]
    unfold decEntry
    rw [if_neg (by omega)]
    obtain ⟨p0, ptl, rfl⟩ : ∃ p0 ptl, prev = p0 :: ptl := by
      cases prev with
      | nil => exact absurd rfl hp
      | cons a b => exact ⟨a, b, rfl⟩
    have hw0 : w.headD 0 = p0 := by
      conv_lhs => rw [hlast]
      rfl
    rw [hlast, hw0]
    rfl

/-! ### Unfolding lemmas for the two loops -/

theorem encLoop_nil (N cap : Nat) (dict : List (List Nat)) (w : List Nat) :
    encLoop N cap dict w [] = [LZWCode.code (codeIndex dict w), LZWCode.eoi] := by
  simp [encLoop]

theorem encLoop_cons (N cap : Nat) (dict : List (List Nat)) (w : List Nat)
    (k : Nat) (rest : List Nat) :
    encLoop N cap dict w (k :: rest) =
      if w ++ [k] ∈ dict then
        encLoop N cap dict (w ++ [k]) rest
      else if dict.length < cap then
        LZWCode.code (codeIndex dict w) ::
          encLoop N cap (dict ++ [w ++ [k]]) [k] rest
      else
        LZWCode.code (codeIndex dict w) :: LZWCode.clear ::
          encLoop N cap (initDict N) [k] rest := by
  simp [encLoop]

theorem decLoop_eoi (N : Nat) (dict : List (List Nat)) (prev : List Nat)
    (rest : List LZWCode) :
    decLoop N dict prev (LZWCode.eoi :: rest) = [] := by
  simp [decLoop]

theorem decLoop_clear (N : Nat) (dict : List (List Nat)) (prev : List Nat)
    (rest : List LZWCode) :
    decLoop N dict prev (LZWCode.clear :: rest) =
      decLoop N (initDict N) [] rest := by
  simp [decLoop]

theorem decLoop_code_fresh (N : Nat) (dict : List (List Nat)) (c : Nat)
    (rest : List LZWCode) :
    decLoop N dict [] (LZWCode.code c :: rest) =
      dict.getD c [] ++ decLoop N dict (dict.getD c []) rest := by
  simp [decLoop]

theorem decLoop_code_mid (N : Nat) (dict : List (List Nat)) {prev : List Nat}
    (hp : prev ≠ []) (c : Nat) (rest : List LZWCode) :
    decLoop N dict prev (LZWCode.code c :: rest) =
      decEntry dict prev c ++
        decLoop N (dict ++ [prev ++ [(decEntry dict prev c).headD 0]])
          (decEntry dict prev c) rest := by
  simp [decLoop, hp]

/-! ### Main LZW synchronization lemma -/

/-- From any state satisfying the start-of-segment or mid-segment
invariant, decoding the encoder's remaining output reproduces the
buffered string followed by the remaining input — for any dictionary
capacity (so the Clear/reset policy cannot break the round trip). -/
theorem decLoop_encLoop (N cap : Nat) (xs : List Nat) :
    ∀ (dE : List (List Nat)) (w : List Nat) (dD : List (List Nat))
      (prev : List Nat),
      (∀ x ∈ xs, x < N) →
      FreshInv N dE w dD prev ∨ MidInv N dE w dD prev →
      decLoop N dD prev (encLoop N cap dE w xs) = w ++ xs := by
  induction xs with
  | nil =>
    intro dE w dD prev _ hinv
    rcases hinv with ⟨hprev, hdE, hdD, k, hw, hk⟩ | hmid
    · subst hprev hdE hdD hw
      rw [encLoop_nil, codeIndex_initDict hk, decLoop_code_fresh,
        getD_initDict hk, decLoop_eoi]
    · have hstep := decEntry_codeIndex hmid
      obtain ⟨hw, hp, hdE, hmemw, ht⟩ := hmid
      rw [encLoop_nil, decLoop_code_mid N dD hp, hstep, decLoop_eoi]
  | cons k rest ih =>
    intro dE w dD prev hx hinv
    have hk : k < N := hx k (List.mem_cons_self k rest)
    have hrest : ∀ x ∈ rest, x < N := fun x hxr =>
      hx x (List.mem_cons_of_mem k hxr)
    rw [encLoop_cons]
    by_cases hmem : w ++ [k] ∈ dE
    · rw [if_pos hmem]
      rcases hinv with ⟨hprev, hdE, hdD, k0, hw, hk0⟩ | hmid
      · exfalso
        rw [hdE, hw] at hmem
        have hlen := length_eq_one_of_mem_initDict hmem
        simp at hlen
      · obtain ⟨hw, hp, hdE, hmemw, ht⟩ := hmid
        have hra : w ++ k :: rest = (w ++ [k]) ++ rest := by simp
        rw [hra]
        apply ih _ _ _ _ hrest
        right
        refine ⟨by simp, hp, ?_, hmem, ht⟩
        rw [headD_append [k] 0 hw]
        exact hdE
    · rw [if_neg hmem]
      by_cases hcap : dE.length < cap
      · rw [if_pos hcap]
        rcases hinv with ⟨hprev, hdE, hdD, k0, hw, hk0⟩ | hmid
        · subst hprev hdE hdD hw
          rw [codeIndex_initDict hk0, decLoop_code_fresh, getD_initDict hk0]
          have hra : [k0] ++ k :: rest = [k0] ++ ([k] ++ rest) := rfl
          rw [hra]
          congr 1
          apply ih _ _ _ _ hrest
          right
          refine ⟨by simp, by simp, rfl, ?_, ⟨[], by simp⟩⟩
          exact List.mem_append.mpr (Or.inl (singleton_mem_initDict hk))
        · have hstep := decEntry_codeIndex hmid
          obtain ⟨hw, hp, hdE, hmemw, ht⟩ := hmid
          rw [decLoop_code_mid N dD hp, hstep, ← hdE]
          have hra : w ++ k :: rest = w ++ ([k] ++ rest) := rfl
          rw [hra]
          congr 1
          apply ih _ _ _ _ hrest
          right
          obtain ⟨t, hts⟩ := ht
          refine ⟨by simp, hw, rfl, ?_, ⟨t ++ [prev ++ [w.headD 0]], ?_⟩⟩
          · apply List.mem_append.mpr (Or.inl ?_)
            rw [hdE, hts]
            exact List.mem_append.mpr
              (Or.inl (List.mem_append.mpr (Or.inl (singleton_mem_initDict hk))))
          · rw [hdE, hts, List.append_assoc]
      · rw [if_neg hcap]
        rcases hinv with ⟨hprev, hdE, hdD, k0, hw, hk0⟩ | hmid
        · subst hprev hdE hdD hw
          rw [codeIndex_initDict hk0, decLoop_code_fresh, getD_initDict hk0,
            decLoop_clear]
          have hra : [k0] ++ k :: rest = [k0] ++ ([k] ++ rest) := rfl
          rw [hra]
          congr 1
          exact ih _ _ _ _ hrest (Or.inl ⟨rfl, rfl, rfl, k, rfl, hk⟩)
        · have hstep := decEntry_codeIndex hmid
          obtain ⟨hw, hp, hdE, hmemw, ht⟩ := hmid
          rw [decLoop_code_mid N dD hp, hstep, decLoop_clear]
          have hra : w ++ k :: rest = w ++ ([k] ++ rest) := rfl
          rw [hra]
          congr 1
          exact ih _ _ _ _ hrest (Or.inl ⟨rfl, rfl, rfl, k, rfl, hk⟩)

/-- Claim C5: for every indexed pixel sequence over `N ≤ 256` symbols
(all values below the number of root codes of the current code width),
decoding the LZW encoder's output reproduces the original sequence
exactly: `lzw_decode N (lzw_encode N seq) = seq`. -/
theorem lzw_roundtrip (N : Nat) (seq : List Nat) (hN : N ≤ 256)
    (h : ∀ x ∈ seq, x < N) :
    lzw_decode N (lzw_encode N seq) = seq := by
  cases seq with
  | nil =>
    show decLoop N (initDict N) [] [LZWCode.clear, LZWCode.eoi] = []
    rw [decLoop_clear, decLoop_eoi]
  | cons k rest =>
    have hk : k < N := h k (List.mem_cons_self k rest)
    have hrest : ∀ x ∈ rest, x < N := fun x hx =>
      h x (List.mem_cons_of_mem k hx)
    show decLoop N (initDict N) []
        (LZWCode.clear :: encLoop N lzwCap (initDict N) [k] rest) = k :: rest
    rw [decLoop_clear]
    exact decLoop_encLoop N lzwCap rest (initDict N) [k] (initDict N) []
      hrest (Or.inl ⟨rfl, rfl, rfl, k, rfl, hk⟩)

/-- Concrete instantiation of `lzw_roundtrip`: the hypotheses hold for
an 8-symbol alphabet and a sequence exercising repeated phrases and the
`KwKwK` pattern. -/
theorem lzw_roundtrip_witness :
    (8 ≤ 256 ∧ ∀ x ∈ [0, 1, 0, 1, 0, 1, 0, 0, 1, 2, 7, 2, 7, 2, 7, 0, 0, 0, 0, 0], x < 8) ∧
    lzw_decode 8 (lzw_encode 8 [0, 1, 0, 1, 0, 1, 0, 0, 1, 2, 7, 2, 7, 2, 7, 0, 0, 0, 0, 0]) =
      [0, 1, 0, 1, 0, 1, 0, 0, 1, 2, 7, 2, 7, 2, 7, 0, 0, 0, 0, 0] :=
  ⟨⟨by decide, by decide⟩,
    lzw_roundtrip 8 [0, 1, 0, 1, 0, 1, 0, 0, 1, 2, 7, 2, 7, 2, 7, 0, 0, 0, 0, 0]
      (by decide) (by decide)⟩

/-! ## Engine model

Modelled from the spec: the wasm `GifProcessor` engine is not in the
repository snapshot; only its JS callers are.  The engine is abstracted
as a record of operations over abstract document, byte-buffer, caption
(`CaptionSpec`), error, and caption-parameter types, per §4.7/§6 of the
design document: `decode` is the fallible load, `exportAll` is the batch
overlay-quantize-encode pipeline, `prepare` builds the serializable
caption spec, `frameCount`/`frameDelay` expose the animation metadata,
and `errStr` is the string rendering the worker applies to a caught
error.  Every claim about the JS glue is proved for an arbitrary such
record.
-/

structure EngineModel (Doc Bytes Text Err P : Type) where
  decode : Bytes → Except Err Doc
  frameCount : Doc → Nat
  frameDelay : Doc → Nat → Nat
  prepare : Option Doc → P → Text
  exportAll : Doc → Text → Except Err Bytes
  errStr : Err → String

/-- A `GifProcessor` instance: an optional loaded document and the
animation-cursor index.  `doc = none` is the `Idle` state. -/
structure ProcSt (Doc : Type) where
  doc : Option Doc
  cursor : Nat
deriving DecidableEq

section Engine

variable {Doc Bytes Text Err P : Type}

/-- Modelled from the spec: `process_gif` (the engine's `load`) decodes
the given bytes into a fresh document with the cursor reset to 0,
discarding all prior instance state; on decode failure the instance is
left `Idle`. -/
def procLoad (E : EngineModel Doc Bytes Text Err P) (b : Bytes) :
    ProcSt Doc :=
  match E.decode b with
  | Except.ok d => ⟨some d, 0⟩
  | Except.error _ => ⟨none, 0⟩

/-- Modelled from the spec: `get_frame_delay()` returns the current
frame's delay in centiseconds. -/
def get_frame_delay (E : EngineModel Doc Bytes Text Err P)
    (p : ProcSt Doc) : Nat :=
  match p.doc with
  | none => 0
  | some d => E.frameDelay d p.cursor

/-- Modelled from the spec: `next_frame()` advances the cursor index
modulo the frame count. -/
def next_frame (E : EngineModel Doc Bytes Text Err P)
    (p : ProcSt Doc) : ProcSt Doc :=
  match p.doc with
  | none => p
  | some d => ⟨some d, (p.cursor + 1) % E.frameCount d⟩

/-- Modelled from the spec: the single logical batch operation
`export_with_caption(bytes, CaptionSpec) → Result<bytes, ProcessingError>`
of §6 — decode the bytes, then run the batch overlay/quantize/encode
pipeline with the given caption spec. -/
def export_with_caption (E : EngineModel Doc Bytes Text Err P)
    (b : Bytes) (t : Text) : Except Err Bytes :=
  match E.decode b with
  | Except.error e => Except.error e
  | Except.ok d => E.exportAll d t

end Engine

/-! ## Worker (`worker.js`)

The worker holds a nullable `gifProcessor` and an initialization
counter (counting executions of `initWasm`).  `self.onmessage` first
initializes the processor if it is null, then switches on the message
type; only `process_gif` is handled, inside a try/catch that posts a
single tagged reply. -/

/-- A message to the worker: `e.data = { type, data }` with
`data = { gifData, textData }` for `type = 'process_gif'`; any other
type falls through the switch unhandled. -/
inductive InMsg (Bytes Text : Type) where
  | processGif (gifData : Bytes) (textData : Text)
  | other
deriving DecidableEq

/-- A message posted back by the worker: `{ type: 'gif_processed', data }`
or `{ type: 'error', error }`. -/
inductive OutMsg (Bytes : Type) where
  | gifProcessed (data : Bytes)
  | error (msg : String)
deriving DecidableEq

/-- Worker state: the nullable `gifProcessor` plus a count of `initWasm`
executions (for stating the at-most-once initialization claim). -/
structure WSt (Doc : Type) where
  proc : Option (ProcSt Doc)
  inits : Nat
deriving DecidableEq

section Worker

variable {Doc Bytes Text Err P : Type}

/-- The worker's initial state: `let gifProcessor = null`. -/
def workerInit : WSt Doc := ⟨none, 0⟩

/-- `if (!gifProcessor) { await initWasm(); }`: construct the processor
on demand. -/
def initIfNeeded (s : WSt Doc) : WSt Doc :=
  match s.proc with
  | none => ⟨some ⟨none, 0⟩, s.inits + 1⟩
  | some _ => s

/-- The body of the worker's `switch`: for `process_gif`, run
`gifProcessor.process_gif(data.gifData)` then
`gifProcessor.process_all_frames_with_text_data(data.textData)` inside
try/catch, posting exactly one reply; other message types produce no
reply. -/
def handleMsg (E : EngineModel Doc Bytes Text Err P) (p : ProcSt Doc)
    (m : InMsg Bytes Text) : ProcSt Doc × List (OutMsg Bytes) :=
  match m with
  | InMsg.other => (p, [])
  | InMsg.processGif g t =>
    match E.decode g with
    | Except.error e => (⟨none, 0⟩, [OutMsg.error (E.errStr e)])
    | Except.ok d =>
      match E.exportAll d t with
      | Except.error e => (⟨some d, 0⟩, [OutMsg.error (E.errStr e)])
      | Except.ok b => (⟨some d, 0⟩, [OutMsg.gifProcessed b])

/-- One execution of `self.onmessage`: lazily initialize, then handle. -/
def workerStep (E : EngineModel Doc Bytes Text Err P) (s : WSt Doc)
    (m : InMsg Bytes Text) : WSt Doc × List (OutMsg Bytes) :=
  let s1 := initIfNeeded s
  match s1.proc with
  | none => (s1, [])
  | some p =>
    let r := handleMsg E p m
    (⟨some r.1, s1.inits⟩, r.2)

/-- The worker's state after handling a whole sequence of messages. -/
def workerRun (E : EngineModel Doc Bytes Text Err P) :
    WSt Doc → List (InMsg Bytes Text) → WSt Doc
  | s, [] => s
  | s, m :: ms => workerRun E (workerStep E s m).1 ms

end Worker

/-! ## Main thread (`index.html`)

The state captured here is the set of mutable bindings of `main()` that
the claims mention: the two engine instances (`gifProcessor` for the
original preview, `processedGifProcessor` for the processed preview),
the loaded file, the processed bytes, the `isProcessing` flag, the
process-button state, the download-button state, whether the preview
animation loop is scheduled, and the preview loop's `lastFrameTime`. -/

structure MainSt (Doc Bytes : Type) where
  gifProcessor : ProcSt Doc
  processedGifProcessor : ProcSt Doc
  currentFile : Option Bytes
  processedGifData : Option Bytes
  isProcessing : Bool
  buttonDisabled : Bool
  buttonText : String
  downloadEnabled : Bool
  animRunning : Bool
  lastFrameTime : Nat
deriving DecidableEq

/-- An observable side effect of a main-thread handler: posting a
message to the worker, or showing an alert dialog. -/
inductive Effect (Bytes Text : Type) where
  | post (m : InMsg Bytes Text)
  | alert (s : String)
deriving DecidableEq

section MainThread

variable {Doc Bytes Text Err P : Type}

/-- `startAnimation()`: returns immediately while `isProcessing` is set,
otherwise (re)schedules the preview animation frames. -/
def startAnimation (s : MainSt Doc Bytes) : MainSt Doc Bytes :=
  if s.isProcessing then s else { s with animRunning := true }

/-- The `processButton` click handler: bail out when no file is loaded
or a batch export is already in flight; otherwise set the in-flight
flag and button state, prepare the text overlay on the main thread via
`gifProcessor.prepare_text_overlay`, and post
`{ type: 'process_gif', data: { gifData, textData } }` to the worker. -/
def clickProcess (E : EngineModel Doc Bytes Text Err P)
    (s : MainSt Doc Bytes) (p : P) : MainSt Doc Bytes × List (Effect Bytes Text) :=
  match s.currentFile with
  | none => (s, [])
  | some g =>
    if s.isProcessing then (s, [])
    else
      ({ s with
           isProcessing := true
           buttonDisabled := true
           buttonText := "Processing..." },
        [Effect.post (InMsg.processGif g
          (E.prepare s.gifProcessor.doc p))])

/-- The main thread's `worker.onmessage` handler.  On `gif_processed` it
stores the data and loads it into `processedGifProcessor` (a decode
failure there throws out of the handler, skipping the remaining button
and flag updates), then enables download, resets the process button,
clears `isProcessing` and restarts the animation.  On `error` it alerts,
resets the process button, clears `isProcessing` and restarts the
animation. -/
def onWorkerMessage (E : EngineModel Doc Bytes Text Err P)
    (s : MainSt Doc Bytes) (m : OutMsg Bytes) :
    MainSt Doc Bytes × List (Effect Bytes Text) :=
  match m with
  | OutMsg.gifProcessed data =>
    match E.decode data with
    | Except.error _ =>
      ({ s with
           processedGifData := some data
           processedGifProcessor := ⟨none, 0⟩ }, [])
    | Except.ok d =>
      (startAnimation
        { s with
            processedGifData := some data
            processedGifProcessor := ⟨some d, 0⟩
            downloadEnabled := true
            buttonDisabled := false
            buttonText := "Process GIF"
            isProcessing := false }, [])
  | OutMsg.error _ =>
    (startAnimation
      { s with
          buttonDisabled := false
          buttonText := "Process GIF"
          isProcessing := false },
      [Effect.alert "Error processing GIF. Please try again."])

/-- One tick of the preview loop `animate(timestamp)`:
`if (!lastFrameTime) lastFrameTime = timestamp`, then advance — render
the current frame and call `next_frame()` — only when the elapsed time
exceeds `get_frame_delay() * 10` milliseconds. -/
def animateTick (E : EngineModel Doc Bytes Text Err P)
    (s : MainSt Doc Bytes) (timestamp : Nat) : MainSt Doc Bytes :=
  let last := if s.lastFrameTime = 0 then timestamp else s.lastFrameTime
  let elapsed := timestamp - last
  let frameDelay := get_frame_delay E s.gifProcessor * 10
  if frameDelay < elapsed then
    { s with
        gifProcessor := next_frame E s.gifProcessor
        lastFrameTime := timestamp }
  else
    { s with lastFrameTime := last }

/-- A whole batch-export round trip: the click handler runs on the main
thread, the posted message (if any) is handled by the worker, and each
worker reply is handled by `worker.onmessage` back on the main thread. -/
def runExport (E : EngineModel Doc Bytes Text Err P)
    (m : MainSt Doc Bytes) (w : WSt Doc) (p : P) :
    MainSt Doc Bytes × WSt Doc :=
  match clickProcess E m p with
  | (m1, [Effect.post msg]) =>
    match workerStep E w msg with
    | (w1, outs) =>
      (outs.foldl (fun acc om => (onWorkerMessage E acc om).1) m1, w1)
  | (m1, _) => (m1, w)

end MainThread

/-! ## Worker protocol theorems -/

/-- Shared helper: the replies of one worker step on a `process_gif`
message are exactly determined by the single logical export operation,
regardless of the worker's prior state. -/
theorem workerStep_replies {Doc Bytes Text Err P : Type}
    (E : EngineModel Doc Bytes Text Err P) (s : WSt Doc) (g : Bytes)
    (t : Text) :
    (workerStep E s (InMsg.processGif g t)).2 =
      (match export_with_caption E g t with
       | Except.ok b => [OutMsg.gifProcessed b]
       | Except.error e => [OutMsg.error (E.errStr e)]) := by
  have hcore : ∀ p : ProcSt Doc,
      (handleMsg E p (InMsg.processGif g t)).2 =
        (match export_with_caption E g t with
         | Except.ok b => [OutMsg.gifProcessed b]
         | Except.error e => [OutMsg.error (E.errStr e)]) := by
    intro p
    cases hd : E.decode g with
    | error e => simp [handleMsg, export_with_caption, hd]
    | ok d =>
      cases hx : E.exportAll d t with
      | error e => simp [handleMsg, export_with_caption, hd, hx]
      | ok b => simp [handleMsg, export_with_caption, hd, hx]
  obtain ⟨pr, ini⟩ := s
  cases pr with
  | none => exact hcore _
  | some p => exact hcore _

/-- Claim C1: for every `process_gif` message the worker replies with
exactly one message — `gif_processed` carrying the complete exported
bytes when the whole pipeline succeeds, or `error` carrying the error
rendered as a string when any step fails; the handler is total (no
failure escapes the worker boundary) and no partial result is posted. -/
theorem worker_single_tagged_reply {Doc Bytes Text Err P : Type}
    (E : EngineModel Doc Bytes Text Err P) (s : WSt Doc) (g : Bytes)
    (t : Text) :
    ∃ r, (workerStep E s (InMsg.processGif g t)).2 = [r] ∧
      ((∃ b, r = OutMsg.gifProcessed b ∧
          export_with_caption E g t = Except.ok b) ∨
       (∃ e, r = OutMsg.error (E.errStr e) ∧
          export_with_caption E g t = Except.error e)) := by
  rw [workerStep_replies]
  cases hx : export_with_caption E g t with
  | ok b => exact ⟨OutMsg.gifProcessed b, rfl, Or.inl ⟨b, rfl, rfl⟩⟩
  | error e => exact ⟨OutMsg.error (E.errStr e), rfl, Or.inr ⟨e, rfl, rfl⟩⟩

/-- Claim C4: the worker's stateful protocol — `process_gif` followed by
`process_all_frames_with_text_data` on its shared processor instance —
is behaviorally equivalent to the single logical operation
`export_with_caption(bytes, CaptionSpec)` for every input pair and every
prior worker state. -/
theorem worker_protocol_refines_export {Doc Bytes Text Err P : Type}
    (E : EngineModel Doc Bytes Text Err P) (s : WSt Doc) (g : Bytes)
    (t : Text) :
    (workerStep E s (InMsg.processGif g t)).2 =
      (match export_with_caption E g t with
       | Except.ok b => [OutMsg.gifProcessed b]
       | Except.error e => [OutMsg.error (E.errStr e)]) :=
  workerStep_replies E s g t

/-- Shared helper: once the worker's processor is non-null, a step keeps
it non-null and performs no further initialization. -/
theorem workerStep_preserves_init {Doc Bytes Text Err P : Type}
    (E : EngineModel Doc Bytes Text Err P) (s : WSt Doc)
    (m : InMsg Bytes Text) (h : s.proc.isSome = true) :
    (workerStep E s m).1.proc.isSome = true ∧
      (workerStep E s m).1.inits = s.inits := by
  obtain ⟨pr, ini⟩ := s
  cases pr with
  | none => simp at h
  | some p => exact ⟨rfl, rfl⟩

/-- Shared helper: a run from a state with a non-null processor never
initializes again and keeps the processor non-null. -/
theorem workerRun_no_reinit {Doc Bytes Text Err P : Type}
    (E : EngineModel Doc Bytes Text Err P) (msgs : List (InMsg Bytes Text)) :
    ∀ s : WSt Doc, s.proc.isSome = true →
      (workerRun E s msgs).inits = s.inits ∧
        (workerRun E s msgs).proc.isSome = true := by
  induction msgs with
  | nil => intro s h; exact ⟨rfl, h⟩
  | cons m ms ih =>
    intro s h
    obtain ⟨h1, h2⟩ := workerStep_preserves_init E s m h
    obtain ⟨h3, h4⟩ := ih _ h1
    exact ⟨h3.trans h2, h4⟩

/-- Claim C10: the worker initializes its engine lazily and at most
once — starting from `gifProcessor = null`, the number of `initWasm`
runs after any message sequence is 0 for the empty sequence and 1
otherwise — and every message is handled only after the
initialize-if-null step has made the processor non-null. -/
theorem worker_lazy_single_init {Doc Bytes Text Err P : Type}
    (E : EngineModel Doc Bytes Text Err P)
    (msgs : List (InMsg Bytes Text)) :
    (workerRun E (workerInit : WSt Doc) msgs).inits = min msgs.length 1 ∧
    ∀ s : WSt Doc, (initIfNeeded s).proc.isSome = true := by
  constructor
  · cases msgs with
    | nil => rfl
    | cons m ms =>
      have h1 : (workerStep E (workerInit : WSt Doc) m).1.proc.isSome
          = true := rfl
      have h2 : (workerStep E (workerInit : WSt Doc) m).1.inits = 1 := rfl
      obtain ⟨h3, -⟩ := workerRun_no_reinit E ms _ h1
      show (workerRun E (workerStep E (workerInit : WSt Doc) m).1 ms).inits
          = min (ms.length + 1) 1
      rw [h3, h2]
      omega
  · intro s
    obtain ⟨pr, ini⟩ := s
    cases pr with
    | none => rfl
    | some p => rfl

/-! ## Main-thread theorems -/

/-- Shared helper: `worker.onmessage` never touches the preview engine
instance `gifProcessor`, in any branch. -/
theorem onWorkerMessage_gifProcessor {Doc Bytes Text Err P : Type}
    (E : EngineModel Doc Bytes Text Err P) (s : MainSt Doc Bytes)
    (m : OutMsg Bytes) :
    (onWorkerMessage E s m).1.gifProcessor = s.gifProcessor := by
  cases m with
  | gifProcessed data =>
    cases hd : E.decode data with
    | error e => simp [onWorkerMessage, hd]
    | ok d => simp [onWorkerMessage, hd, startAnimation]
  | error e => simp [onWorkerMessage, startAnimation]

/-- Shared helper: folding `worker.onmessage` over any reply list leaves
`gifProcessor` unchanged. -/
theorem foldl_onWorkerMessage_gifProcessor {Doc Bytes Text Err P : Type}
    (E : EngineModel Doc Bytes Text Err P) (outs : List (OutMsg Bytes)) :
    ∀ s : MainSt Doc Bytes,
      (outs.foldl (fun acc om => (onWorkerMessage E acc om).1) s).gifProcessor
        = s.gifProcessor := by
  induction outs with
  | nil => intro s; rfl
  | cons o os ih =>
    intro s
    rw [List.foldl_cons, ih, onWorkerMessage_gifProcessor]

/-- Shared helper: the click handler never touches the preview engine
instance `gifProcessor`. -/
theorem clickProcess_gifProcessor {Doc Bytes Text Err P : Type}
    (E : EngineModel Doc Bytes Text Err P) (s : MainSt Doc Bytes) (p : P) :
    (clickProcess E s p).1.gifProcessor = s.gifProcessor := by
  unfold clickProcess
  cases hf : s.currentFile with
  | none => rfl
  | some g =>
    cases hp : s.isProcessing
    · rfl
    · rfl

/-- Claim C2: preview and export run on independently created engine
instances over independently decoded documents — the main thread's
`gifProcessor`, the worker's own processor, and the
`processedGifProcessor` are separate state cells — so a whole batch
export round trip leaves the preview engine's document and cursor index
unchanged. -/
theorem export_leaves_preview_engine {Doc Bytes Text Err P : Type}
    (E : EngineModel Doc Bytes Text Err P) (m : MainSt Doc Bytes)
    (w : WSt Doc) (p : P) :
    (runExport E m w p).1.gifProcessor.doc = m.gifProcessor.doc ∧
    (runExport E m w p).1.gifProcessor.cursor = m.gifProcessor.cursor := by
  have hmain : (runExport E m w p).1.gifProcessor = m.gifProcessor := by
    have hm1 : (clickProcess E m p).1.gifProcessor = m.gifProcessor :=
      clickProcess_gifProcessor E m p
    unfold runExport
    rcases hc : clickProcess E m p with ⟨m1, effs⟩
    rw [hc] at hm1
    match effs with
    | [] => exact hm1
    | Effect.alert a :: es => exact hm1
    | Effect.post msg :: e2 :: es => exact hm1
    | [Effect.post msg] =>
      rcases hw : workerStep E w msg with ⟨w1, outs⟩
      simp only []
      rw [foldl_onWorkerMessage_gifProcessor]
      exact hm1
  exact ⟨congrArg ProcSt.doc hmain, congrArg ProcSt.cursor hmain⟩

/-- Shared helper: when the elapsed time exceeds the converted frame
delay, an animation tick advances the preview engine via `next_frame`. -/
theorem animateTick_advances {Doc Bytes Text Err P : Type}
    (E : EngineModel Doc Bytes Text Err P) (s : MainSt Doc Bytes) (ts : Nat)
    (h : get_frame_delay E s.gifProcessor * 10 <
      ts - (if s.lastFrameTime = 0 then ts else s.lastFrameTime)) :
    (animateTick E s ts).gifProcessor = next_frame E s.gifProcessor ∧
      (animateTick E s ts).lastFrameTime = ts := by
  unfold animateTick
  rw [if_pos h]
  exact ⟨rfl, rfl⟩

/-- Claim C6: in the preview loop the cursor never advances early — a
tick invokes the render/`next_frame` pair only when the elapsed time
exceeds the current frame's delay, `get_frame_delay()` centiseconds
converted to milliseconds by multiplying by 10; otherwise the tick
leaves the preview engine (hence the cursor) unchanged. -/
theorem preview_no_early_advance {Doc Bytes Text Err P : Type}
    (E : EngineModel Doc Bytes Text Err P) (s : MainSt Doc Bytes)
    (ts : Nat) :
    (¬ get_frame_delay E s.gifProcessor * 10 <
        ts - (if s.lastFrameTime = 0 then ts else s.lastFrameTime) →
      (animateTick E s ts).gifProcessor = s.gifProcessor) ∧
    (get_frame_delay E s.gifProcessor * 10 <
        ts - (if s.lastFrameTime = 0 then ts else s.lastFrameTime) →
      (animateTick E s ts).gifProcessor = next_frame E s.gifProcessor ∧
        (animateTick E s ts).lastFrameTime = ts) := by
  constructor
  · intro h
    unfold animateTick
    rw [if_neg h]
  · intro h
    exact animateTick_advances E s ts h

/-- Claim C7: whenever the worker reports an export error, the
`worker.onmessage` handler alerts the user, re-enables the process
button with its label restored to `Process GIF`, clears the
`isProcessing` flag, and restarts the preview animation. -/
theorem worker_error_resets_ui {Doc Bytes Text Err P : Type}
    (E : EngineModel Doc Bytes Text Err P) (s : MainSt Doc Bytes)
    (e : String) :
    (onWorkerMessage E s (OutMsg.error e)).1.buttonDisabled = false ∧
    (onWorkerMessage E s (OutMsg.error e)).1.buttonText = "Process GIF" ∧
    (onWorkerMessage E s (OutMsg.error e)).1.isProcessing = false ∧
    (onWorkerMessage E s (OutMsg.error e)).1.animRunning = true ∧
    Effect.alert "Error processing GIF. Please try again." ∈
      (onWorkerMessage E s (OutMsg.error e)).2 := by
  refine ⟨rfl, rfl, rfl, rfl, ?_⟩
  exact List.mem_singleton.mpr rfl

/-- Claim C8: clicking `Process GIF` while `isProcessing` is set or
while no file is loaded returns immediately — no message is sent and no
state changes — and otherwise the handler sets the in-flight flag and
posts exactly one `process_gif` message, so at most one batch export is
in flight at a time. -/
theorem click_guard {Doc Bytes Text Err P : Type}
    (E : EngineModel Doc Bytes Text Err P) (s : MainSt Doc Bytes) (p : P) :
    ((s.currentFile = none ∨ s.isProcessing = true) →
      clickProcess E s p = (s, ([] : List (Effect Bytes Text)))) ∧
    (∀ g, s.currentFile = some g → s.isProcessing = false →
      (clickProcess E s p).1.isProcessing = true ∧
      (clickProcess E s p).2 =
        [Effect.post (InMsg.processGif g (E.prepare s.gifProcessor.doc p))]) := by
  constructor
  · intro h
    unfold clickProcess
    rcases h with h | h
    · rw [h]
    · cases hf : s.currentFile with
      | none => rfl
      | some g => rw [h]; simp
  · intro g hg hp
    unfold clickProcess
    rw [hg, hp]
    exact ⟨rfl, rfl⟩

/-- Claim C3: the `CaptionSpec` produced by `prepare_text_overlay` on
the main thread crosses the worker boundary untouched — the click
handler posts exactly the prepared value, and the worker passes the
message's `textData` verbatim to
`process_all_frames_with_text_data`. -/
theorem caption_spec_untouched {Doc Bytes Text Err P : Type}
    (E : EngineModel Doc Bytes Text Err P) (m : MainSt Doc Bytes) (p : P)
    (w : WSt Doc) (g : Bytes) (h1 : m.currentFile = some g)
    (h2 : m.isProcessing = false) :
    (clickProcess E m p).2 =
      [Effect.post (InMsg.processGif g (E.prepare m.gifProcessor.doc p))] ∧
    (workerStep E w (InMsg.processGif g (E.prepare m.gifProcessor.doc p))).2 =
      (match E.decode g with
       | Except.error e => [OutMsg.error (E.errStr e)]
       | Except.ok d =>
         match E.exportAll d (E.prepare m.gifProcessor.doc p) with
         | Except.error e => [OutMsg.error (E.errStr e)]
         | Except.ok b => [OutMsg.gifProcessed b]) := by
  constructor
  · unfold clickProcess
    rw [h1, h2]
    simp
  · rw [workerStep_replies]
    unfold export_with_caption
    cases hd : E.decode g with
    | error e => rfl
    | ok d =>
      cases hx : E.exportAll d (E.prepare m.gifProcessor.doc p) with
      | error e => simp [hx]
      | ok b => simp [hx]

/-- Claim C9: the long batch pipeline runs on an execution context
separate from the preview loop — the click handler only posts a
`process_gif` message (leaving both main-thread engine instances
untouched), the preview tick still advances the cursor after dispatch,
and the pipeline's result is computed by the worker's message step. -/
theorem export_dispatched_to_worker {Doc Bytes Text Err P : Type}
    (E : EngineModel Doc Bytes Text Err P) (m : MainSt Doc Bytes)
    (w : WSt Doc) (p : P) (g : Bytes) (ts : Nat)
    (h1 : m.currentFile = some g) (h2 : m.isProcessing = false) :
    (clickProcess E m p).2 =
      [Effect.post (InMsg.processGif g (E.prepare m.gifProcessor.doc p))] ∧
    ((clickProcess E m p).1.gifProcessor = m.gifProcessor ∧
     (clickProcess E m p).1.processedGifProcessor = m.processedGifProcessor) ∧
    (get_frame_delay E m.gifProcessor * 10 <
        ts - (if (clickProcess E m p).1.lastFrameTime = 0 then ts
              else (clickProcess E m p).1.lastFrameTime) →
      (animateTick E (clickProcess E m p).1 ts).gifProcessor =
        next_frame E m.gifProcessor) ∧
    (workerStep E w (InMsg.processGif g (E.prepare m.gifProcessor.doc p))).2 =
      (match export_with_caption E g (E.prepare m.gifProcessor.doc p) with
       | Except.ok b => [OutMsg.gifProcessed b]
       | Except.error e => [OutMsg.error (E.errStr e)]) := by
  have hc : clickProcess E m p =
      ({ m with
          isProcessing := true
          buttonDisabled := true
          buttonText := "Processing..." },
        [Effect.post (InMsg.processGif g (E.prepare m.gifProcessor.doc p))]) := by
    unfold clickProcess
    rw [h1, h2]
    simp
  refine ⟨by rw [hc], ⟨by rw [hc], by rw [hc]⟩, ?_, workerStep_replies E w g _⟩
  intro h
  rw [hc] at h ⊢
  exact (animateTick_advances E
    ({ m with
        isProcessing := true
        buttonDisabled := true
        buttonText := "Processing..." }) ts h).1

/-! ## Concrete demonstration instances for witnesses -/

/-- A small concrete engine used to witness the hypotheses of the
theorems above: documents, bytes, caption text, errors and caption
parameters are all `Nat`; byte value 0 fails to decode. -/
def engineDemo : EngineModel Nat Nat Nat Nat Nat where
  decode := fun b => if b = 0 then Except.error 3 else Except.ok b
  frameCount := fun _ => 3
  frameDelay := fun _ _ => 2
  prepare := fun _ p => p + 1
  exportAll := fun d t => Except.ok (d + t)
  errStr := fun _ => "err"

/-- A concrete main-thread state with a loaded file, a decoded preview
document at cursor 1, and no export in flight. -/
def mainDemo : MainSt Nat Nat where
  gifProcessor := ⟨some 7, 1⟩
  processedGifProcessor := ⟨none, 0⟩
  currentFile := some 7
  processedGifData := none
  isProcessing := false
  buttonDisabled := false
  buttonText := "Process GIF"
  downloadEnabled := false
  animRunning := true
  lastFrameTime := 3

/-- Concrete instantiation of `preview_no_early_advance`: at timestamp
10 with `lastFrameTime = 3` only 7 ms have elapsed, below the 20 ms
frame delay, so the preview engine state is unchanged. -/
theorem preview_no_early_advance_witness :
    (animateTick engineDemo mainDemo 10).gifProcessor =
      mainDemo.gifProcessor :=
  (preview_no_early_advance engineDemo mainDemo 10).1 (by decide)

/-- Concrete instantiation of `click_guard`: with `isProcessing` set the
click handler is a no-op. -/
theorem click_guard_witness :
    clickProcess engineDemo { mainDemo with isProcessing := true } 5 =
      ({ mainDemo with isProcessing := true }, []) :=
  (click_guard engineDemo { mainDemo with isProcessing := true } 5).1
    (Or.inr rfl)

/-- Concrete instantiation of `caption_spec_untouched`: the hypotheses
hold for `mainDemo`, and the posted message carries exactly the prepared
caption value. -/
theorem caption_spec_untouched_witness :
    mainDemo.currentFile = some 7 ∧ mainDemo.isProcessing = false ∧
    (clickProcess engineDemo mainDemo 5).2 =
      [Effect.post (InMsg.processGif 7
        (engineDemo.prepare mainDemo.gifProcessor.doc 5))] :=
  ⟨rfl, rfl,
    (caption_spec_untouched engineDemo mainDemo 5 workerInit 7 rfl rfl).1⟩

/-- Concrete instantiation of `export_dispatched_to_worker`: the
hypotheses hold for `mainDemo`, and the dispatch leaves the preview
engine instance untouched. -/
theorem export_dispatched_to_worker_witness :
    mainDemo.currentFile = some 7 ∧ mainDemo.isProcessing = false ∧
    (clickProcess engineDemo mainDemo 5).1.gifProcessor =
      mainDemo.gifProcessor :=
  ⟨rfl, rfl,
    (export_dispatched_to_worker engineDemo mainDemo workerInit 5 7 0
      rfl rfl).2.1.1⟩
